import Mathlib

/-!
Shallow embedding of `src/DiscreteFactor.py` (class `Factor`).

Modelling conventions:
* Variable names and outcome values are natural numbers (the Python code
  allows strings or integers; the algorithms only compare them for equality).
* Probabilities are exact rationals (`ℚ`); numpy floating point is modelled
  by exact field arithmetic.
* A numpy n-dimensional array is a `Tensor`: an explicit `shape` together
  with a total function from multi-indices (lists of coordinates, one per
  axis) to values.  Reads outside the shape are garbage values that no
  theorem depends on.
* The Python dict `outcomeSpace` is a total function `Nat → Option (List Nat)`;
  `none` models a missing key.  Claims assume invariant I2/I3 of the spec
  (every domain variable has an entry), under which the `KeyError` branches
  of the Python code are unreachable, so lookups use a default of `[]`.
* Python `list(set(a) - set(b))` iterates a hash set.  For distinct small
  integer keys (values `0..7`, at most four elements) CPython stores key
  `k` in slot `k` of an 8-slot table, so iteration is in ascending order.
  `pySetDiff` models exactly that: the distinct elements of `a` not in `b`,
  in ascending order.  (Checked against CPython: `list({2,1} - {0})`
  evaluates to `[1, 2]`, not `[2, 1]`.)
* Mutation is modelled by returning the new value; `copy.deepcopy` and
  `table.copy()` make the Python methods observationally pure, so the
  non-mutation statements of the spec are discharged by this translation.
* Raised exceptions (`AssertionError`, `ValueError` from `list.index`,
  `IndexError`, `UnboundLocalError`) are modelled by `Except PyErr` or
  `Option` results.
-/

namespace DiscreteFactor

/-- Outcome space: Python dict from variable name to tuple of outcomes. -/
abbrev OS : Type := Nat → Option (List Nat)

/-- Dict lookup under invariant I2/I3 (key present); default never used by claims. -/
def osGet (os : OS) (v : Nat) : List Nat := (os v).getD []

/-- A numpy array: a shape and a total map from multi-indices to rationals. -/
structure Tensor where
  shape : List Nat
  data : List Nat → ℚ

/-- All valid multi-indices of a shape, in C (row-major) order. -/
def allIx : List Nat → List (List Nat)
  | [] => [[]]
  | n :: s => (List.range n).flatMap (fun i => (allIx s).map (fun ix => i :: ix))

/-- Model of `np.sum(table)`: grand sum over every cell. -/
def Tensor.sumAll (t : Tensor) : ℚ := ((allIx t.shape).map t.data).sum

/-- Model of `np.ones(shape)`. -/
def npOnes (shape : List Nat) : Tensor := ⟨shape, fun _ => 1⟩

/-- Model of `table / c` (elementwise division by a scalar). -/
def Tensor.divScalar (t : Tensor) (c : ℚ) : Tensor := ⟨t.shape, fun ix => t.data ix / c⟩

/-- Model of `np.expand_dims(t, -1)`: appends a trailing singleton axis. -/
def Tensor.expandLast (t : Tensor) : Tensor :=
  ⟨t.shape ++ [1], fun ix => t.data (ix.take t.shape.length)⟩

/-- Model of the loop `for i in range(k): t = np.expand_dims(t, -1)`. -/
def Tensor.expandN (t : Tensor) : Nat → Tensor
  | 0 => t
  | k + 1 => (t.expandN k).expandLast

/-- Model of `t.transpose(axes)`: axis `i` of the result is axis `axes[i]` of `t`. -/
def Tensor.transpose (t : Tensor) (axes : List Nat) : Tensor :=
  ⟨axes.map (fun a => t.shape.getD a 0),
   fun ix => t.data ((List.range t.shape.length).map (fun j => ix.getD (axes.indexOf j) 0))⟩

/-- Broadcast source index: a size-1 axis always reads position 0. -/
def bIx (shape ix : List Nat) : List Nat :=
  (List.range shape.length).map (fun j => if shape.getD j 0 = 1 then 0 else ix.getD j 0)

/-- Model of numpy broadcasting multiplication of two equal-rank arrays. -/
def Tensor.bmul (t u : Tensor) : Tensor :=
  ⟨List.zipWith (fun a b => if a = 1 then b else a) t.shape u.shape,
   fun ix => t.data (bIx t.shape ix) * u.data (bIx u.shape ix)⟩

/-- Model of `np.sum(t, axis)`: sums out one axis. -/
def Tensor.sumAxis (t : Tensor) (a : Nat) : Tensor :=
  ⟨t.shape.eraseIdx a,
   fun ix => ((List.range (t.shape.getD a 0)).map (fun k => t.data (ix.insertIdx a k))).sum⟩

/-- The Python exceptions the indexing and evidence code can raise. -/
inductive PyErr where
  | assertionError
  | valueError
  | indexError
  | unboundLocalError
deriving DecidableEq

/-- The factor data model of `Factor.__init__`: domain, outcomeSpace, table. -/
structure Factor where
  domain : List Nat
  os : OS
  table : Tensor

/-- Model of `Factor.__init__(domain, outcomeSpace, table)`: with no table a
uniform tensor of shape `[len(outcomeSpace[v]) for v in domain]` divided by
its grand sum; with a table, an independent copy of it. -/
def Factor.init (domain : List Nat) (os : OS) (table : Option Tensor) : Factor :=
  match table with
  | none =>
      let t := npOnes (domain.map (fun v => (osGet os v).length))
      ⟨domain, os, t.divScalar t.sumAll⟩
  | some t => ⟨domain, os, t⟩

/-- Model of the generator
`tuple(self.outcomeSpace[var].index(outcomes[i]) for i, var in enumerate(self.domain))`,
walked left to right: a position beyond `outcomes` raises `IndexError`, a
value absent from the outcome tuple raises `ValueError` (`list.index`).
Surplus entries of `outcomes` are never read. -/
def ixListAux (os : OS) : List Nat → List Nat → Except PyErr (List Nat)
  | [], _ => Except.ok []
  | _ :: _, [] => Except.error PyErr.indexError
  | v :: dom, x :: outs =>
      if x ∈ osGet os v then
        (ixListAux os dom outs).map (fun rest => (osGet os v).indexOf x :: rest)
      else Except.error PyErr.valueError

/-- Model of `Factor.__getitem__`: asserts the index count matches the domain
size, then reads the cell at the translated index tuple. -/
def Factor.getItem (f : Factor) (outcomes : List Nat) : Except PyErr ℚ :=
  if outcomes.length = f.domain.length then
    (ixListAux f.os f.domain outcomes).map f.table.data
  else Except.error PyErr.assertionError

/-- Model of `Factor.__setitem__`: no length assertion; translates indices
(reading `outcomes[i]` can raise `IndexError`) and overwrites one cell. -/
def Factor.setItem (f : Factor) (outcomes : List Nat) (val : ℚ) : Except PyErr Factor :=
  (ixListAux f.os f.domain outcomes).map (fun indices =>
    ⟨f.domain, f.os, ⟨f.table.shape, fun ix => if ix = indices then val else f.table.data ix⟩⟩)

/-- Model of `list(set(a) - set(b))` for distinct small integer keys:
the distinct members of `a` absent from `b`, in CPython set-iteration order,
which for such keys is ascending numeric order. -/
def pySetDiff (a b : List Nat) : List Nat :=
  List.insertionSort (· ≤ ·) ((a.filter (fun v => decide (v ∉ b))).dedup)

/-- Model of `new_dom = list(self.domain) + list(set(other.domain) - set(self.domain))`. -/
def joinDom (self other : Factor) : List Nat :=
  self.domain ++ pySetDiff other.domain self.domain

/-- Model of `new_outcomeSpace = self.outcomeSpace.copy(); new_outcomeSpace.update(other.outcomeSpace)`:
dict update with `other`'s entries taking precedence. -/
def joinOS (self other : Factor) : OS :=
  fun v => match other.os v with
  | some l => some l
  | none => self.os v

/-- Model of `old_order = list(other.domain) + list(set(self.domain) - set(other.domain))`. -/
def joinOldOrder (self other : Factor) : List Nat :=
  other.domain ++ pySetDiff self.domain other.domain

/-- Model of the table construction in `Factor.join`: each operand gains one
trailing singleton axis per variable private to the other operand,
`other`'s table is transposed so its axes follow `new_dom`
(`new_order[i] = old_order.index(new_dom[i])`), and the two arrays are
multiplied with broadcasting. -/
def joinTable (self other : Factor) : Tensor :=
  (self.table.expandN (pySetDiff other.domain self.domain).length).bmul
    ((other.table.expandN (pySetDiff self.domain other.domain).length).transpose
      ((joinDom self other).map (fun v => (joinOldOrder self other).indexOf v)))

/-- Model of `Factor.join`: compatibility check over shared domain variables
(`IndexError` on mismatch, modelled as `none`), then construction of the
joined factor from the pieces above via the constructor (which copies the
table). -/
def Factor.join (self other : Factor) : Option Factor :=
  if ∃ v ∈ other.domain, v ∈ self.domain ∧ osGet self.os v ≠ osGet other.os v then
    none
  else
    some (Factor.init (joinDom self other) (joinOS self other) (some (joinTable self other)))

/-- Index tuple of an assignment: for each domain variable in order, the
position of its assigned value within its outcome sequence. -/
def ixOf (os : OS) (dom : List Nat) (asn : Nat → Nat) : List Nat :=
  dom.map (fun v => (osGet os v).indexOf (asn v))

/-- Model of one iteration of the loop in `Factor.evidence`.  The membership
test `value in f.outcomeSpace[var]` guards only the assignment of
`valuepos`; the slicing and the outcome-space rewrite run unconditionally
whenever `var in f.domain`.  A read of `valuepos` before any assignment in
this call raises `UnboundLocalError` (modelled as `none`); the `Option Nat`
accumulator carries the latest bound value across iterations. -/
def evStepCore (self_os : OS) (f : Factor) (vp0 : Option Nat) (var value : Nat) :
    Option (Factor × Option Nat) :=
  if var ∈ f.domain then
    match (if value ∈ osGet f.os var then some ((osGet self_os var).indexOf value) else vp0) with
    | none => none
    | some p =>
        some (⟨f.domain,
               fun w => if w = var then some [value] else f.os w,
               ⟨List.zipWith (fun w s => if w = var then min (p + 1) s - min p s else s)
                  f.domain f.table.shape,
                fun ix => f.table.data
                  ((List.range f.domain.length).map
                    (fun i => if f.domain.getD i 0 = var then p + ix.getD i 0
                              else ix.getD i 0))⟩⟩,
              some p)
  else some (f, vp0)

def evStep (self_os : OS) (fv : Factor × Option Nat) (kv : Nat × Nat) :
    Option (Factor × Option Nat) :=
  evStepCore self_os fv.1 fv.2 kv.1 kv.2

/-- Model of `Factor.evidence(**kwargs)`: a fresh deep copy threaded through
`evStep` for each keyword assignment, in order. -/
def Factor.evidence (f : Factor) (kwargs : List (Nat × Nat)) : Option Factor :=
  (kwargs.foldlM (evStep f.os) (f, none)).map Prod.fst

/-- Model of `Factor.marginalize(var)`: `list.remove` / `list.index` raise
`ValueError` when `var` is absent (modelled as `none`); otherwise the first
occurrence is removed from the domain and its axis is summed out. -/
def Factor.marginalize (f : Factor) (var : Nat) : Option Factor :=
  if var ∈ f.domain then
    some (Factor.init (f.domain.erase var) f.os
      (some (f.table.sumAxis (f.domain.indexOf var))))
  else none

/-- Model of `Factor.normalize`: divides the table by its grand sum (in the
Python code this mutates `self.table` and returns `self`). -/
def Factor.normalize (f : Factor) : Factor :=
  ⟨f.domain, f.os, f.table.divScalar f.table.sumAll⟩

/-- The data-model invariants of the spec (section 3): duplicate-free domain
(data model), I1 (shape matches outcome counts), I2/I3 (every domain
variable has an outcome-space entry), I4 (outcomes of one variable are
distinct). -/
def WF (f : Factor) : Prop :=
  f.domain.Nodup ∧
  (∀ v ∈ f.domain, (f.os v).isSome = true) ∧
  f.table.shape = f.domain.map (fun v => (osGet f.os v).length) ∧
  (∀ v ∈ f.domain, (osGet f.os v).Nodup)

instance (f : Factor) : Decidable (WF f) := by
  unfold WF
  infer_instance

/-- The output invariant of claim C10: I1 (every table axis matches its
variable's outcome count) and I2 (every domain variable has an
outcome-space entry). -/
def ShapeInv (g : Factor) : Prop :=
  g.table.shape = g.domain.map (fun v => (osGet g.os v).length) ∧
  ∀ v ∈ g.domain, (g.os v).isSome = true

instance (f : Factor) : Decidable (ShapeInv f) := by
  unfold ShapeInv
  infer_instance

/-! ### Concrete factors used to instantiate the theorems below -/

/-- Outcome space mapping variables `0`, `1`, `2` to the binary outcomes `[0, 1]`. -/
def osU : OS := fun v => if v ≤ 2 then some [0, 1] else none

/-- All-ones table of a given shape (an unnormalized weight table). -/
def tbl1 (s : List Nat) : Tensor := ⟨s, fun _ => 1⟩

/-- Binary factor over variable 0 with entries 2 (at outcome 0) and 3 (at outcome 1). -/
def eA : Factor := ⟨[0], osU, ⟨[2], fun ix => if ix = [0] then 2 else 3⟩⟩

/-- All-ones binary factor over variable 1. -/
def eB : Factor := ⟨[1], osU, tbl1 [2]⟩

/-- All-ones factor over variables 0 and 1. -/
def eAB : Factor := ⟨[0, 1], osU, tbl1 [2, 2]⟩

/-- All-ones factor whose domain lists variable 2 before variable 1. -/
def eB21 : Factor := ⟨[2, 1], osU, tbl1 [2, 2]⟩

/-- Outcome space with an extra entry for variable 0 (reversed outcomes) on top
of the binary entry for variable 1: a superset outcome space allowed by
invariant I3. -/
def osRev : OS := fun v => if v = 1 then some [0, 1] else if v = 0 then some [1, 0] else none

/-- All-ones binary factor over variable 1 carrying the reversed extra entry
for variable 0 in its outcome space. -/
def eRev : Factor := ⟨[1], osRev, tbl1 [2]⟩

/-- Outcome space with an extra singleton entry `[5]` for variable 0 on top of
the binary entry for variable 1. -/
def osExtra : OS := fun v => if v = 1 then some [0, 1] else if v = 0 then some [5] else none

/-- All-ones binary factor over variable 1 carrying the extra singleton entry
for variable 0 in its outcome space. -/
def eExtra : Factor := ⟨[1], osExtra, tbl1 [2]⟩

/-! ### Summation helpers -/

lemma list_sum_map_add {α : Type} (l : List α) (f g : α → ℚ) :
    (l.map (fun x => f x + g x)).sum = (l.map f).sum + (l.map g).sum := by
  induction l with
  | nil => simp
  | cons a l ih => simp [ih]; ring

lemma list_sum_map_div {α : Type} (l : List α) (f : α → ℚ) (c : ℚ) :
    (l.map (fun x => f x / c)).sum = (l.map f).sum / c := by
  induction l with
  | nil => simp
  | cons a l ih => simp [ih, add_div]

lemma list_sum_map_const {α : Type} (l : List α) (c : ℚ) :
    (l.map (fun _ => c)).sum = l.length * c := by
  induction l with
  | nil => simp
  | cons a l ih => simp [ih]; ring

lemma list_sum_comm {α β : Type} (l₁ : List α) (l₂ : List β) (f : α → β → ℚ) :
    (l₁.map (fun x => (l₂.map (fun y => f x y)).sum)).sum =
      (l₂.map (fun y => (l₁.map (fun x => f x y)).sum)).sum := by
  induction l₁ with
  | nil => simp
  | cons a l ih => simp [ih, list_sum_map_add]

lemma sum_map_flatMap {α β : Type} (l : List α) (g : α → List β) (d : β → ℚ) :
    ((l.flatMap g).map d).sum = (l.map (fun x => ((g x).map d).sum)).sum := by
  induction l with
  | nil => simp
  | cons a l ih => simp [List.flatMap_cons, ih]

/-! ### Multi-index enumeration -/

lemma sum_allIx_cons (n : Nat) (s : List Nat) (d : List Nat → ℚ) :
    ((allIx (n :: s)).map d).sum =
      ((List.range n).map (fun i => ((allIx s).map (fun ix => d (i :: ix))).sum)).sum := by
  simp [allIx, sum_map_flatMap, List.map_map, Function.comp_def]

lemma length_allIx (s : List Nat) : (allIx s).length = s.prod := by
  induction s with
  | nil => simp [allIx]
  | cons n s ih =>
      simp only [allIx, List.length_flatMap, Function.comp_def, List.length_map, ih,
        List.prod_cons]
      rw [List.map_const', List.sum_replicate, List.length_range, smul_eq_mul]

lemma length_of_mem_allIx {s ix : List Nat} (h : ix ∈ allIx s) : ix.length = s.length := by
  induction s generalizing ix with
  | nil => simp [allIx] at h; simp [h]
  | cons n s ih =>
      simp only [allIx, List.mem_flatMap, List.mem_map] at h
      obtain ⟨i, _, iy, hiy, rfl⟩ := h
      simp [ih hiy]

lemma eraseIdx_set_self {α : Type} (s : List α) (a : Nat) (c : α) :
    (s.set a c).eraseIdx a = s.eraseIdx a := by
  induction s generalizing a with
  | nil => simp
  | cons x s ih =>
      cases a with
      | zero => simp
      | succ b => simp [ih]

lemma sum_allIx_eraseIdx :
    ∀ (s : List Nat) (a : Nat), a < s.length → ∀ (d : List Nat → ℚ),
      ((allIx s).map d).sum =
        ((List.range (s.getD a 0)).map (fun k =>
          ((allIx (s.eraseIdx a)).map (fun ix => d (ix.insertIdx a k))).sum)).sum := by
  intro s
  induction s with
  | nil => intro a ha; simp at ha
  | cons n s ih =>
      intro a ha d
      cases a with
      | zero =>
          simp only [List.getD_cons_zero, List.eraseIdx_cons_zero, List.insertIdx_zero]
          exact sum_allIx_cons n s d
      | succ b =>
          have hb : b < s.length := by simpa using ha
          rw [sum_allIx_cons]
          have step : ∀ i : Nat,
              ((allIx s).map (fun ix => d (i :: ix))).sum =
                ((List.range (s.getD b 0)).map (fun k =>
                  ((allIx (s.eraseIdx b)).map
                    (fun ix => d (i :: ix.insertIdx b k))).sum)).sum := by
            intro i
            exact ih b hb (fun ix => d (i :: ix))
          calc ((List.range n).map (fun i => ((allIx s).map (fun ix => d (i :: ix))).sum)).sum
              = ((List.range n).map (fun i => ((List.range (s.getD b 0)).map (fun k =>
                  ((allIx (s.eraseIdx b)).map
                    (fun ix => d (i :: ix.insertIdx b k))).sum)).sum)).sum := by
                  exact congrArg _ (by
                    apply List.map_congr_left
                    intro i _
                    exact step i)
            _ = ((List.range (s.getD b 0)).map (fun k => ((List.range n).map (fun i =>
                  ((allIx (s.eraseIdx b)).map
                    (fun ix => d (i :: ix.insertIdx b k))).sum)).sum)).sum :=
                  list_sum_comm _ _ _
            _ = ((List.range ((n :: s).getD (b + 1) 0)).map (fun k =>
                  ((allIx ((n :: s).eraseIdx (b + 1))).map
                    (fun ix => d (ix.insertIdx (b + 1) k))).sum)).sum := by
                  simp only [List.getD_cons_succ, List.eraseIdx_cons_succ]
                  apply congrArg
                  apply List.map_congr_left
                  intro k _
                  rw [sum_allIx_cons]
                  apply congrArg
                  apply List.map_congr_left
                  intro i _
                  apply congrArg
                  apply List.map_congr_left
                  intro ix _
                  simp [List.insertIdx_succ_cons]

lemma sum_allIx_set_one (s : List Nat) (a : Nat) (h : a < s.length) (d : List Nat → ℚ) :
    ((allIx (s.set a 1)).map d).sum =
      ((allIx (s.eraseIdx a)).map (fun ix => d (ix.insertIdx a 0))).sum := by
  have h' : a < (s.set a 1).length := by simpa using h
  rw [sum_allIx_eraseIdx (s.set a 1) a h' d]
  have hget : (s.set a 1).getD a 0 = 1 := by
    rw [List.getD_eq_getElem _ _ h']
    simp
  rw [hget, eraseIdx_set_self]
  simp [List.range_succ]

lemma sumAll_sumAxis (t : Tensor) (a : Nat) (h : a < t.shape.length) :
    (t.sumAxis a).sumAll = t.sumAll := by
  unfold Tensor.sumAll Tensor.sumAxis
  simp only
  rw [sum_allIx_eraseIdx t.shape a h t.data, list_sum_comm]

/-! ### expandN -/

lemma expandN_shape (t : Tensor) (k : Nat) :
    (t.expandN k).shape = t.shape ++ List.replicate k 1 := by
  induction k with
  | zero => simp [Tensor.expandN]
  | succ k ih =>
      simp only [Tensor.expandN, Tensor.expandLast, ih, List.replicate_succ']
      rw [List.append_assoc]

lemma expandN_data (t : Tensor) (k : Nat) (ix : List Nat)
    (h : ix.length ≤ t.shape.length + k) :
    (t.expandN k).data ix = t.data (ix.take t.shape.length) := by
  induction k generalizing ix with
  | zero =>
      simp only [Tensor.expandN]
      rw [List.take_of_length_le (by simpa using h)]
  | succ k ih =>
      simp only [Tensor.expandN, Tensor.expandLast]
      have hlen : (t.expandN k).shape.length = t.shape.length + k := by
        simp [expandN_shape]
      rw [hlen, ih (ix.take (t.shape.length + k)) (by simp), List.take_take]
      congr 1
      congr 1
      omega

/-! ### pySetDiff -/

lemma mem_pySetDiff {a b : List Nat} {v : Nat} : v ∈ pySetDiff a b ↔ v ∈ a ∧ v ∉ b := by
  simp [pySetDiff, List.mem_insertionSort, List.mem_dedup, List.mem_filter]

lemma nodup_pySetDiff (a b : List Nat) : (pySetDiff a b).Nodup :=
  (List.perm_insertionSort _ _).nodup_iff.mpr (List.nodup_dedup _)

lemma sorted_pySetDiff (a b : List Nat) : (pySetDiff a b).Sorted (· ≤ ·) :=
  List.sorted_insertionSort _ _

/-! ### indexOf and getD helpers -/

lemma getD_indexOf {l : List Nat} {v : Nat} (h : v ∈ l) : l.getD (l.indexOf v) 0 = v := by
  rw [List.getD_eq_getElem _ _ (List.indexOf_lt_length.mpr h)]
  exact List.getElem_indexOf _

lemma indexOf_len_one {l : List Nat} {v : Nat} (h : v ∈ l) (hl : l.length = 1) :
    l.indexOf v = 0 := by
  have := List.indexOf_lt_length.mpr h
  omega

lemma indexOf_map_indexOf (L M : List Nat) (hM : M.Nodup) (hLM : ∀ v ∈ L, v ∈ M)
    (j : Nat) (hj : j < M.length) :
    (L.map (fun v => M.indexOf v)).indexOf j = L.indexOf (M.getD j 0) := by
  induction L with
  | nil => simp
  | cons v L ih =>
      have hv : v ∈ M := hLM v (by simp)
      have hcond : (M.indexOf v = j) ↔ (v = M.getD j 0) := by
        constructor
        · intro hidx
          rw [← hidx, getD_indexOf hv]
        · intro hval
          rw [hval, List.getD_eq_getElem _ _ hj]
          exact List.indexOf_getElem hM j hj
      simp only [List.map_cons, List.indexOf_cons]
      by_cases hc : M.indexOf v = j
      · have hv2 : v = M.getD j 0 := hcond.mp hc
        rw [hc, hv2]
        simp
      · have hv2 : ¬v = M.getD j 0 := fun h => hc (hcond.mpr h)
        have h1 : (M.indexOf v == j) = false := by simpa using hc
        have h2 : (v == M.getD j 0) = false := by simpa using hv2
        rw [h1, h2]
        simp [ih (fun w hw => hLM w (by simp [hw]))]

/-! ### getD component helpers -/

lemma ext_getD (l₁ l₂ : List Nat) (hlen : l₁.length = l₂.length)
    (h : ∀ j, j < l₁.length → l₁.getD j 0 = l₂.getD j 0) : l₁ = l₂ := by
  apply List.ext_getElem hlen
  intro i h1 h2
  have hh := h i h1
  rwa [List.getD_eq_getElem _ _ h1, List.getD_eq_getElem _ _ h2] at hh

lemma getD_map (f : Nat → Nat) (l : List Nat) (j : Nat) (hj : j < l.length) :
    (l.map f).getD j 0 = f (l.getD j 0) := by
  rw [List.getD_eq_getElem _ _ (by simpa using hj), List.getElem_map,
    List.getD_eq_getElem _ _ hj]

lemma getD_map_range (g : Nat → Nat) (n j : Nat) (hj : j < n) :
    ((List.range n).map g).getD j 0 = g j := by
  rw [List.getD_eq_getElem _ _ (by simpa using hj), List.getElem_map, List.getElem_range]

lemma getD_take_eq (l : List Nat) (n j : Nat) (hj : j < n) (hj2 : j < l.length) :
    (l.take n).getD j 0 = l.getD j 0 := by
  rw [List.getD_eq_getElem _ _ (by simp; omega), List.getElem_take,
    List.getD_eq_getElem _ _ hj2]

lemma getD_mem {l : List Nat} {j : Nat} (hj : j < l.length) : l.getD j 0 ∈ l := by
  rw [List.getD_eq_getElem _ _ hj]
  exact List.getElem_mem _

lemma indexOf_getD_self {l : List Nat} (h : l.Nodup) {j : Nat} (hj : j < l.length) :
    l.indexOf (l.getD j 0) = j := by
  rw [List.getD_eq_getElem _ _ hj]
  exact List.indexOf_getElem h j hj

lemma bIx_getD (s ix : List Nat) (j : Nat) (hj : j < s.length) :
    (bIx s ix).getD j 0 = if s.getD j 0 = 1 then 0 else ix.getD j 0 := by
  unfold bIx
  exact getD_map_range _ _ j hj

lemma length_bIx (s ix : List Nat) : (bIx s ix).length = s.length := by
  simp [bIx]

lemma ix_eval_or_one {l : List Nat} {x : Nat} (hx : x ∈ l) :
    (if l.length = 1 then 0 else l.indexOf x) = l.indexOf x := by
  by_cases h : l.length = 1
  · rw [if_pos h, indexOf_len_one hx h]
  · rw [if_neg h]

/-! ### join helpers -/

lemma join_guard_of_compat {A B : Factor}
    (h : ∀ v, v ∈ A.domain → v ∈ B.domain → osGet A.os v = osGet B.os v) :
    ¬∃ v ∈ B.domain, v ∈ A.domain ∧ osGet A.os v ≠ osGet B.os v := by
  rintro ⟨v, hvB, hvA, hne⟩
  exact hne (h v hvA hvB)

lemma join_eq_some (A B : Factor)
    (h : ¬∃ v ∈ B.domain, v ∈ A.domain ∧ osGet A.os v ≠ osGet B.os v) :
    A.join B = some ⟨joinDom A B, joinOS A B, joinTable A B⟩ := by
  unfold Factor.join
  rw [if_neg h]
  rfl

lemma sumAll_divScalar (t : Tensor) (c : ℚ) : (t.divScalar c).sumAll = t.sumAll / c := by
  unfold Tensor.sumAll Tensor.divScalar
  exact list_sum_map_div _ _ _

lemma divScalar_one (t : Tensor) : t.divScalar 1 = t := by
  cases t with
  | mk s d => simp [Tensor.divScalar]

/-! ### Index-translation lemmas for getItem and setItem -/

lemma ixListAux_ok (os : OS) (dom : List Nat) (asn : Nat → Nat)
    (h : ∀ v ∈ dom, asn v ∈ osGet os v) :
    ixListAux os dom (dom.map asn) =
      Except.ok (dom.map (fun v => (osGet os v).indexOf (asn v))) := by
  induction dom with
  | nil => rfl
  | cons v dom ih =>
      simp only [List.map_cons, ixListAux, if_pos (h v (by simp))]
      rw [ih (fun w hw => h w (by simp [hw]))]
      rfl

lemma ixListAux_valueError (os : OS) :
    ∀ (dom outs : List Nat), dom.length = outs.length →
      (∃ i, i < dom.length ∧ outs.getD i 0 ∉ osGet os (dom.getD i 0)) →
      ixListAux os dom outs = Except.error PyErr.valueError := by
  intro dom
  induction dom with
  | nil =>
      intro outs _ hbad
      obtain ⟨i, hi, _⟩ := hbad
      simp at hi
  | cons v dom ih =>
      intro outs hlen hbad
      cases outs with
      | nil => simp at hlen
      | cons x outs =>
          by_cases hx : x ∈ osGet os v
          · obtain ⟨i, hi, hbad⟩ := hbad
            cases i with
            | zero => simp at hbad; exact absurd hx hbad
            | succ j =>
                simp only [ixListAux, if_pos hx]
                rw [ih outs (by simpa using hlen)
                  ⟨j, by simpa using hi, by simpa using hbad⟩]
                rfl
          · simp only [ixListAux, if_neg hx]

lemma ixListAux_short (os : OS) :
    ∀ (dom outs : List Nat), outs.length < dom.length →
      ∃ e, ixListAux os dom outs = Except.error e := by
  intro dom
  induction dom with
  | nil =>
      intro outs h
      simp at h
  | cons v dom ih =>
      intro outs h
      cases outs with
      | nil => exact ⟨PyErr.indexError, rfl⟩
      | cons x outs =>
          by_cases hx : x ∈ osGet os v
          · obtain ⟨e, he⟩ := ih outs (by simpa using h)
            refine ⟨e, ?_⟩
            simp only [ixListAux, if_pos hx, he]
            rfl
          · exact ⟨PyErr.valueError, by simp only [ixListAux, if_neg hx]⟩

lemma ixListAux_ok_long (os : OS) :
    ∀ (dom outs : List Nat), dom.length ≤ outs.length →
      (∀ i, i < dom.length → outs.getD i 0 ∈ osGet os (dom.getD i 0)) →
      ∃ ixs, ixListAux os dom outs = Except.ok ixs := by
  intro dom
  induction dom with
  | nil => intro outs _ _; exact ⟨[], rfl⟩
  | cons v dom ih =>
      intro outs hlen hmem
      cases outs with
      | nil => simp at hlen
      | cons x outs =>
          have hx : x ∈ osGet os v := by simpa using hmem 0 (by simp)
          obtain ⟨ixs, hixs⟩ := ih outs (by simpa using hlen)
            (fun i hi => by simpa using hmem (i + 1) (by simpa using hi))
          refine ⟨(osGet os v).indexOf x :: ixs, ?_⟩
          simp only [ixListAux, if_pos hx, hixs]
          rfl

/-! ### Join outcome-space and domain lemmas -/

lemma mem_joinDom {A B : Factor} {v : Nat} :
    v ∈ joinDom A B ↔ v ∈ A.domain ∨ v ∈ B.domain := by
  simp only [joinDom, List.mem_append, mem_pySetDiff]
  tauto

lemma mem_joinOldOrder {A B : Factor} {v : Nat} :
    v ∈ joinOldOrder A B ↔ v ∈ A.domain ∨ v ∈ B.domain := by
  simp only [joinOldOrder, List.mem_append, mem_pySetDiff]
  tauto

lemma nodup_joinOldOrder {A B : Factor} (hB : B.domain.Nodup) :
    (joinOldOrder A B).Nodup :=
  hB.append (nodup_pySetDiff _ _) (fun a ha hb => (mem_pySetDiff.mp hb).2 ha)

lemma nodup_joinDom {A B : Factor} (hA : A.domain.Nodup) :
    (joinDom A B).Nodup :=
  hA.append (nodup_pySetDiff _ _) (fun a ha hb => (mem_pySetDiff.mp hb).2 ha)

lemma joinOS_of_B {A B : Factor} (hsomeB : ∀ w ∈ B.domain, (B.os w).isSome = true)
    {v : Nat} (hv : v ∈ B.domain) :
    osGet (joinOS A B) v = osGet B.os v := by
  have hs := hsomeB v hv
  cases hcase : B.os v with
  | none => rw [hcase] at hs; simp at hs
  | some l => simp [joinOS, osGet, hcase]

lemma joinOS_of_A {A B : Factor}
    (hcompat : ∀ w, w ∈ A.domain → w ∈ B.domain → osGet A.os w = osGet B.os w)
    (hagree : ∀ w ∈ A.domain, w ∉ B.domain → (B.os w).isSome = true → B.os w = A.os w)
    {v : Nat} (hv : v ∈ A.domain) :
    osGet (joinOS A B) v = osGet A.os v := by
  cases hcase : B.os v with
  | none => simp [joinOS, osGet, hcase]
  | some l =>
      by_cases hvB : v ∈ B.domain
      · have h1 := hcompat v hv hvB
        simp only [osGet, hcase, Option.getD_some] at h1
        simp [joinOS, osGet, hcase, h1]
      · have h2 := hagree v hv hvB (by rw [hcase]; rfl)
        rw [hcase] at h2
        simp [joinOS, osGet, hcase, ← h2]

/-! ### Join value computation -/

lemma joinTable_data (A B : Factor) (hA : WF A) (hB : WF B)
    (hcompat : ∀ v, v ∈ A.domain → v ∈ B.domain → osGet A.os v = osGet B.os v)
    (hagree : ∀ v ∈ A.domain, v ∉ B.domain → (B.os v).isSome = true → B.os v = A.os v)
    (asn : Nat → Nat)
    (hasnA : ∀ v ∈ A.domain, asn v ∈ osGet A.os v)
    (hasnB : ∀ v ∈ B.domain, asn v ∈ osGet B.os v) :
    (joinTable A B).data (ixOf (joinOS A B) (joinDom A B) asn) =
      A.table.data (ixOf A.os A.domain asn) * B.table.data (ixOf B.os B.domain asn) := by
  obtain ⟨hndA, hsomeA, hshapeA, _⟩ := hA
  obtain ⟨hndB, hsomeB, hshapeB, _⟩ := hB
  have hOSA : ∀ v ∈ A.domain, osGet (joinOS A B) v = osGet A.os v :=
    fun v hv => joinOS_of_A hcompat hagree hv
  have hOSB : ∀ v ∈ B.domain, osGet (joinOS A B) v = osGet B.os v :=
    fun v hv => joinOS_of_B hsomeB hv
  have hrA : A.table.shape.length = A.domain.length := by rw [hshapeA]; simp
  have hrB : B.table.shape.length = B.domain.length := by rw [hshapeB]; simp
  have hlen_dNew : (joinDom A B).length =
      A.domain.length + (pySetDiff B.domain A.domain).length := by simp [joinDom]
  have hlen_old : (joinOldOrder A B).length =
      B.domain.length + (pySetDiff A.domain B.domain).length := by simp [joinOldOrder]
  have hlen_ixC : (ixOf (joinOS A B) (joinDom A B) asn).length = (joinDom A B).length := by
    simp [ixOf]
  have hixCj : ∀ j, j < (joinDom A B).length →
      (ixOf (joinOS A B) (joinDom A B) asn).getD j 0 =
        (osGet (joinOS A B) ((joinDom A B).getD j 0)).indexOf
          (asn ((joinDom A B).getD j 0)) :=
    fun j hj => getD_map _ _ j hj
  have hdom_getD : ∀ j, j < A.domain.length → (joinDom A B).getD j 0 = A.domain.getD j 0 := by
    intro j hj
    unfold joinDom
    exact List.getD_append _ _ _ _ hj
  -- self side
  have hself_shape : (A.table.expandN (pySetDiff B.domain A.domain).length).shape =
      A.table.shape ++ List.replicate (pySetDiff B.domain A.domain).length 1 :=
    expandN_shape _ _
  have hself_len : (A.table.expandN (pySetDiff B.domain A.domain).length).shape.length =
      A.domain.length + (pySetDiff B.domain A.domain).length := by
    rw [hself_shape]; simp [hrA]
  have hS1 : (A.table.expandN (pySetDiff B.domain A.domain).length).data
      (bIx (A.table.expandN (pySetDiff B.domain A.domain).length).shape
        (ixOf (joinOS A B) (joinDom A B) asn)) =
      A.table.data (ixOf A.os A.domain asn) := by
    rw [expandN_data _ _ _ (by rw [length_bIx, hself_len, hrA])]
    apply congrArg
    apply ext_getD
    · rw [List.length_take, length_bIx, hself_len, hrA]
      simp [ixOf]
    · intro j hj
      have hjA : j < A.domain.length := by
        rw [List.length_take, length_bIx, hself_len, hrA] at hj
        omega
      have hjshape : j < (A.table.expandN (pySetDiff B.domain A.domain).length).shape.length := by
        omega
      rw [getD_take_eq _ _ _ (by omega) (by rw [length_bIx]; omega),
        bIx_getD _ _ _ hjshape]
      have hsj : (A.table.expandN (pySetDiff B.domain A.domain).length).shape.getD j 0 =
          (osGet A.os (A.domain.getD j 0)).length := by
        rw [hself_shape, List.getD_append _ _ _ _ (by omega), hshapeA]
        exact getD_map _ _ j hjA
      have hmemA : A.domain.getD j 0 ∈ A.domain := getD_mem hjA
      rw [hsj, hixCj j (by omega), hdom_getD j hjA, hOSA _ hmemA]
      unfold ixOf
      rw [getD_map _ _ j hjA]
      exact ix_eval_or_one (hasnA _ hmemA)
  -- other side
  have hother_shape : (B.table.expandN (pySetDiff A.domain B.domain).length).shape =
      B.table.shape ++ List.replicate (pySetDiff A.domain B.domain).length 1 :=
    expandN_shape _ _
  have hother_len : (B.table.expandN (pySetDiff A.domain B.domain).length).shape.length =
      B.domain.length + (pySetDiff A.domain B.domain).length := by
    rw [hother_shape]; simp [hrB]
  have hnodup_old : (joinOldOrder A B).Nodup := nodup_joinOldOrder hndB
  have hsub : ∀ v ∈ joinDom A B, v ∈ joinOldOrder A B :=
    fun v hv => mem_joinOldOrder.mpr (mem_joinDom.mp hv)
  have hS2 : ((B.table.expandN (pySetDiff A.domain B.domain).length).transpose
      ((joinDom A B).map (fun v => (joinOldOrder A B).indexOf v))).data
      (bIx ((B.table.expandN (pySetDiff A.domain B.domain).length).transpose
        ((joinDom A B).map (fun v => (joinOldOrder A B).indexOf v))).shape
        (ixOf (joinOS A B) (joinDom A B) asn)) =
      B.table.data (ixOf B.os B.domain asn) := by
    show (B.table.expandN (pySetDiff A.domain B.domain).length).data _ = _
    rw [expandN_data _ _ _ (by rw [List.length_map, List.length_range, hother_len]; omega)]
    apply congrArg
    apply ext_getD
    · rw [List.length_take, List.length_map, List.length_range, hother_len, hrB]
      simp [ixOf]
    · intro j hj
      have hjB : j < B.domain.length := by
        rw [List.length_take, List.length_map, List.length_range, hother_len, hrB] at hj
        omega
      rw [getD_take_eq _ _ _ (by omega)
        (by rw [List.length_map, List.length_range, hother_len]; omega)]
      rw [getD_map_range _ _ j (by omega)]
      -- the transposed-axis source component for axis j
      have hwB : B.domain.getD j 0 ∈ B.domain := getD_mem hjB
      have hw_dNew : B.domain.getD j 0 ∈ joinDom A B := mem_joinDom.mpr (Or.inr hwB)
      have hi_lt : (joinDom A B).indexOf (B.domain.getD j 0) < (joinDom A B).length :=
        List.indexOf_lt_length.mpr hw_dNew
      have hold_j : (joinOldOrder A B).getD j 0 = B.domain.getD j 0 := by
        unfold joinOldOrder
        exact List.getD_append _ _ _ _ hjB
      have hidx : ((joinDom A B).map (fun v => (joinOldOrder A B).indexOf v)).indexOf j =
          (joinDom A B).indexOf (B.domain.getD j 0) := by
        rw [indexOf_map_indexOf (joinDom A B) (joinOldOrder A B) hnodup_old hsub j
          (by omega), hold_j]
      rw [hidx]
      have hdNew_i : (joinDom A B).getD ((joinDom A B).indexOf (B.domain.getD j 0)) 0 =
          B.domain.getD j 0 := getD_indexOf hw_dNew
      have hnewOrder_i : (((joinDom A B).map (fun v => (joinOldOrder A B).indexOf v))).getD
          ((joinDom A B).indexOf (B.domain.getD j 0)) 0 = j := by
        rw [getD_map _ _ _ hi_lt, hdNew_i]
        unfold joinOldOrder
        rw [List.indexOf_append_of_mem hwB]
        exact indexOf_getD_self hndB hjB
      have htrans_shape : ((B.table.expandN (pySetDiff A.domain B.domain).length).transpose
          ((joinDom A B).map (fun v => (joinOldOrder A B).indexOf v))).shape.getD
          ((joinDom A B).indexOf (B.domain.getD j 0)) 0 =
          (osGet B.os (B.domain.getD j 0)).length := by
        show (((joinDom A B).map (fun v => (joinOldOrder A B).indexOf v)).map
          (fun a => (B.table.expandN (pySetDiff A.domain B.domain).length).shape.getD a 0)).getD
          ((joinDom A B).indexOf (B.domain.getD j 0)) 0 = _
        rw [getD_map _ _ _ (by rw [List.length_map]; omega), hnewOrder_i,
          hother_shape, List.getD_append _ _ _ _ (by omega), hshapeB]
        exact getD_map _ _ j hjB
      rw [bIx_getD _ _ _ (by
        show _ < (((joinDom A B).map (fun v => (joinOldOrder A B).indexOf v)).map
          (fun a => (B.table.expandN (pySetDiff A.domain B.domain).length).shape.getD a 0)).length
        rw [List.length_map, List.length_map]
        omega)]
      rw [htrans_shape, hixCj _ (by omega), hdNew_i, hOSB _ hwB]
      unfold ixOf
      rw [getD_map _ _ j hjB]
      exact ix_eval_or_one (hasnB _ hwB)
  show ((A.table.expandN (pySetDiff B.domain A.domain).length).bmul _).data _ = _
  unfold Tensor.bmul
  rw [← hS1, ← hS2]

lemma getItem_map (f : Factor) (asn : Nat → Nat)
    (h : ∀ v ∈ f.domain, asn v ∈ osGet f.os v) :
    f.getItem (f.domain.map asn) = Except.ok (f.table.data (ixOf f.os f.domain asn)) := by
  unfold Factor.getItem
  rw [if_pos (by simp), ixListAux_ok f.os f.domain asn h]
  rfl

lemma join_val_one (A B : Factor) (hA : WF A) (hB : WF B)
    (hcompat : ∀ v, v ∈ A.domain → v ∈ B.domain → osGet A.os v = osGet B.os v)
    (hagree : ∀ v ∈ A.domain, v ∉ B.domain → (B.os v).isSome = true → B.os v = A.os v)
    (asn : Nat → Nat)
    (hasnA : ∀ v ∈ A.domain, asn v ∈ osGet A.os v)
    (hasnB : ∀ v ∈ B.domain, asn v ∈ osGet B.os v) :
    ∃ C, A.join B = some C ∧
      C.getItem (C.domain.map asn) = Except.ok
        (A.table.data (ixOf A.os A.domain asn) * B.table.data (ixOf B.os B.domain asn)) := by
  refine ⟨⟨joinDom A B, joinOS A B, joinTable A B⟩,
    join_eq_some A B (join_guard_of_compat hcompat), ?_⟩
  have hasnC : ∀ v ∈ joinDom A B, asn v ∈ osGet (joinOS A B) v := by
    intro v hv
    rcases mem_joinDom.mp hv with hvA | hvB
    · rw [joinOS_of_A hcompat hagree hvA]
      exact hasnA v hvA
    · rw [joinOS_of_B hB.2.1 hvB]
      exact hasnB v hvB
  rw [getItem_map ⟨joinDom A B, joinOS A B, joinTable A B⟩ asn hasnC]
  exact congrArg Except.ok (joinTable_data A B ⟨hA.1, hA.2.1, hA.2.2.1, hA.2.2.2⟩
    ⟨hB.1, hB.2.1, hB.2.2.1, hB.2.2.2⟩ hcompat hagree asn hasnA hasnB)

/-! ### Evidence lemmas -/

lemma evidence_single (f : Factor) (v x : Nat) (hv : v ∈ f.domain)
    (hx : x ∈ osGet f.os v) :
    f.evidence [(v, x)] = some
      ⟨f.domain,
       fun w => if w = v then some [x] else f.os w,
       ⟨List.zipWith (fun w s => if w = v then
            min ((osGet f.os v).indexOf x + 1) s - min ((osGet f.os v).indexOf x) s else s)
          f.domain f.table.shape,
        fun ix => f.table.data
          ((List.range f.domain.length).map
            (fun i => if f.domain.getD i 0 = v then (osGet f.os v).indexOf x + ix.getD i 0
                      else ix.getD i 0))⟩⟩ := by
  unfold Factor.evidence
  have hstep : evStepCore f.os f none v x = some
      (⟨f.domain,
        fun w => if w = v then some [x] else f.os w,
        ⟨List.zipWith (fun w s => if w = v then
             min ((osGet f.os v).indexOf x + 1) s - min ((osGet f.os v).indexOf x) s else s)
           f.domain f.table.shape,
         fun ix => f.table.data
           ((List.range f.domain.length).map
             (fun i => if f.domain.getD i 0 = v then (osGet f.os v).indexOf x + ix.getD i 0
                       else ix.getD i 0))⟩⟩, some ((osGet f.os v).indexOf x)) := by
    unfold evStepCore
    rw [if_pos hv, if_pos hx]
  simp [List.foldlM, evStep, hstep]

lemma zipWith_slice_shape (dom shape : List Nat) (v : Nat) (hnd : dom.Nodup)
    (hv : v ∈ dom) (hlen : shape.length = dom.length) (p : Nat)
    (hp : p < shape.getD (dom.indexOf v) 0) :
    List.zipWith (fun w s => if w = v then min (p + 1) s - min p s else s) dom shape =
      shape.set (dom.indexOf v) 1 := by
  have ha : dom.indexOf v < dom.length := List.indexOf_lt_length.mpr hv
  apply List.ext_getElem
  · simp [hlen]
  · intro i h1 h2
    have hi : i < dom.length := by simpa [hlen] using h1
    have hi2 : i < shape.length := by simpa [hlen] using hi
    rw [List.getElem_zipWith]
    by_cases hcase : i = dom.indexOf v
    · subst hcase
      rw [List.getElem_indexOf ha, if_pos rfl, List.getElem_set_self]
      have hp2 : p < shape[dom.indexOf v] := by
        rw [← List.getD_eq_getElem shape 0 hi2]
        exact hp
      omega
    · have hne : dom[i] ≠ v := by
        intro hcontra
        apply hcase
        have : dom.indexOf dom[i] = i := List.indexOf_getElem hnd i hi
        rw [hcontra] at this
        omega
      rw [if_neg hne, List.getElem_set_ne (by omega)]

lemma sliced_index_eval (dom : List Nat) (hnd : dom.Nodup) (v : Nat) (hv : v ∈ dom)
    (iy : List Nat) (hlen : iy.length + 1 = dom.length) (p : Nat) :
    (List.range dom.length).map (fun i =>
        if dom.getD i 0 = v then p + (iy.insertIdx (dom.indexOf v) 0).getD i 0
        else (iy.insertIdx (dom.indexOf v) 0).getD i 0)
      = iy.insertIdx (dom.indexOf v) p := by
  have ha : dom.indexOf v < dom.length := List.indexOf_lt_length.mpr hv
  have hay : dom.indexOf v ≤ iy.length := by omega
  have hlen0 : (iy.insertIdx (dom.indexOf v) 0).length = dom.length := by
    rw [List.length_insertIdx _ _ hay]; omega
  have hlenp : (iy.insertIdx (dom.indexOf v) p).length = dom.length := by
    rw [List.length_insertIdx _ _ hay]; omega
  apply List.ext_getElem
  · simp [hlenp]
  · intro i h1 h2
    have hi : i < dom.length := by simpa using h1
    rw [List.getElem_map, List.getElem_range]
    have hdomi : dom.getD i 0 = dom[i] := List.getD_eq_getElem dom 0 hi
    by_cases hcase : i = dom.indexOf v
    · subst hcase
      rw [hdomi, List.getElem_indexOf ha, if_pos rfl]
      rw [List.getD_eq_getElem _ 0 (by omega), List.getElem_insertIdx_self _ _ _ hay]
      rw [List.getElem_insertIdx_self _ _ _ hay]
      omega
    · have hne : dom.getD i 0 ≠ v := by
        rw [hdomi]
        intro hcontra
        apply hcase
        have : dom.indexOf dom[i] = i := List.indexOf_getElem hnd i hi
        rw [hcontra] at this
        omega
      rw [if_neg hne]
      rcases Nat.lt_or_ge i (dom.indexOf v) with hlt | hge
      · rw [List.getD_eq_getElem _ 0 (by omega),
          List.getElem_insertIdx_of_lt _ _ _ _ hlt (by omega),
          List.getElem_insertIdx_of_lt _ _ _ _ hlt (by omega)]
      · have hgt : dom.indexOf v < i := by omega
        obtain ⟨k, rfl⟩ : ∃ k, i = dom.indexOf v + k + 1 :=
          ⟨i - dom.indexOf v - 1, by omega⟩
        rw [List.getD_eq_getElem _ 0 (by omega),
          List.getElem_insertIdx_add_succ _ _ _ _ (by omega),
          List.getElem_insertIdx_add_succ _ _ _ _ (by omega)]

/-! ### Invariant preservation -/

lemma getD_zipWith (f : Nat → Nat → Nat) (l₁ l₂ : List Nat) (j : Nat)
    (h1 : j < l₁.length) (h2 : j < l₂.length) :
    (List.zipWith f l₁ l₂).getD j 0 = f (l₁.getD j 0) (l₂.getD j 0) := by
  rw [List.getD_eq_getElem _ _ (by simp; omega), List.getElem_zipWith,
    List.getD_eq_getElem _ _ h1, List.getD_eq_getElem _ _ h2]

lemma getD_replicate_one (k j : Nat) (hj : j < k) :
    (List.replicate k (1 : Nat)).getD j 0 = 1 := by
  rw [List.getD_eq_getElem _ _ (by simpa using hj)]
  simp

lemma joinOS_isSome (A B : Factor)
    (hsomeA : ∀ v ∈ A.domain, (A.os v).isSome = true)
    (hsomeB : ∀ v ∈ B.domain, (B.os v).isSome = true) :
    ∀ v ∈ joinDom A B, ((joinOS A B) v).isSome = true := by
  intro v hv
  unfold joinOS
  rcases mem_joinDom.mp hv with h | h
  · cases hcase : B.os v with
    | none => simpa [hcase] using hsomeA v h
    | some l => simp [hcase]
  · have hs := hsomeB v h
    cases hcase : B.os v with
    | none => rw [hcase] at hs; simp at hs
    | some l => simp [hcase]

lemma join_ShapeInv (A B : Factor) (hA : WF A) (hB : WF B)
    (hcompat : ∀ v, v ∈ A.domain → v ∈ B.domain → osGet A.os v = osGet B.os v)
    (hagree : ∀ v ∈ A.domain, v ∉ B.domain → (B.os v).isSome = true → B.os v = A.os v) :
    ShapeInv ⟨joinDom A B, joinOS A B, joinTable A B⟩ := by
  obtain ⟨hndA, hsomeA, hshapeA, _⟩ := hA
  obtain ⟨hndB, hsomeB, hshapeB, _⟩ := hB
  have hOSA : ∀ v ∈ A.domain, osGet (joinOS A B) v = osGet A.os v :=
    fun v hv => joinOS_of_A hcompat hagree hv
  have hOSB : ∀ v ∈ B.domain, osGet (joinOS A B) v = osGet B.os v :=
    fun v hv => joinOS_of_B hsomeB hv
  have hrA : A.table.shape.length = A.domain.length := by rw [hshapeA]; simp
  have hrB : B.table.shape.length = B.domain.length := by rw [hshapeB]; simp
  have hself_shape := expandN_shape A.table (pySetDiff B.domain A.domain).length
  have hself_len : (A.table.expandN (pySetDiff B.domain A.domain).length).shape.length =
      A.domain.length + (pySetDiff B.domain A.domain).length := by
    rw [hself_shape]; simp [hrA]
  have hother_shape := expandN_shape B.table (pySetDiff A.domain B.domain).length
  have hlen_dNew : (joinDom A B).length =
      A.domain.length + (pySetDiff B.domain A.domain).length := by simp [joinDom]
  -- the self-operand axis sizes after expansion
  have haval_lt : ∀ i, i < A.domain.length →
      (A.table.expandN (pySetDiff B.domain A.domain).length).shape.getD i 0 =
        (osGet A.os (A.domain.getD i 0)).length := by
    intro i hi
    rw [hself_shape, List.getD_append _ _ _ _ (by omega), hshapeA]
    exact getD_map _ _ i hi
  have haval_ge : ∀ i, A.domain.length ≤ i → i < (joinDom A B).length →
      (A.table.expandN (pySetDiff B.domain A.domain).length).shape.getD i 0 = 1 := by
    intro i hge hlt
    rw [hself_shape, List.getD_append_right _ _ _ _ (by omega)]
    exact getD_replicate_one _ _ (by omega)
  -- the other-operand axis sizes after expansion and transposition
  have hbval : ∀ i, i < (joinDom A B).length →
      ((((joinDom A B).map (fun v => (joinOldOrder A B).indexOf v)).map
        (fun a => (B.table.expandN (pySetDiff A.domain B.domain).length).shape.getD a 0))).getD
          i 0 =
        if (joinDom A B).getD i 0 ∈ B.domain then
          (osGet B.os ((joinDom A B).getD i 0)).length else 1 := by
    intro i hi
    rw [getD_map _ _ i (by simpa using hi), getD_map _ _ i hi]
    by_cases hwB : (joinDom A B).getD i 0 ∈ B.domain
    · rw [if_pos hwB]
      unfold joinOldOrder
      rw [List.indexOf_append_of_mem hwB]
      have hjb : B.domain.indexOf ((joinDom A B).getD i 0) < B.domain.length :=
        List.indexOf_lt_length.mpr hwB
      rw [hother_shape, List.getD_append _ _ _ _ (by omega), hshapeB,
        getD_map _ _ _ hjb, getD_indexOf hwB]
    · rw [if_neg hwB]
      have hwA : (joinDom A B).getD i 0 ∈ A.domain := by
        rcases mem_joinDom.mp (getD_mem hi) with h | h
        · exact h
        · exact absurd h hwB
      have hwE : (joinDom A B).getD i 0 ∈ pySetDiff A.domain B.domain :=
        mem_pySetDiff.mpr ⟨hwA, hwB⟩
      have hE : (pySetDiff A.domain B.domain).indexOf ((joinDom A B).getD i 0) <
          (pySetDiff A.domain B.domain).length := List.indexOf_lt_length.mpr hwE
      unfold joinOldOrder
      rw [List.indexOf_append_of_not_mem hwB, hother_shape,
        List.getD_append_right _ _ _ _ (by omega)]
      exact getD_replicate_one _ _ (by omega)
  constructor
  · show (joinTable A B).shape = _
    unfold joinTable Tensor.bmul Tensor.transpose
    simp only
    apply ext_getD
    · simp only [List.length_zipWith, List.length_map, hself_len, List.length_map]
      rw [hlen_dNew]
      simp
    · intro i hi
      have hiR : i < (joinDom A B).length := by
        simp only [List.length_zipWith, List.length_map, hself_len] at hi
        omega
      rw [getD_zipWith _ _ _ i (by omega) (by simp only [List.length_map]; omega),
        getD_map (fun v => (osGet (joinOS A B) v).length) _ i hiR, hbval i hiR]
      by_cases hcase : i < A.domain.length
      · have hmemA : (joinDom A B).getD i 0 ∈ A.domain := by
          unfold joinDom
          rw [List.getD_append _ _ _ _ hcase]
          exact getD_mem hcase
        have hwA : (joinDom A B).getD i 0 = A.domain.getD i 0 := by
          unfold joinDom
          exact List.getD_append _ _ _ _ hcase
        rw [haval_lt i hcase, hOSA _ hmemA, ← hwA]
        by_cases hone : (osGet A.os ((joinDom A B).getD i 0)).length = 1
        · rw [if_pos hone]
          by_cases hwB : (joinDom A B).getD i 0 ∈ B.domain
          · rw [if_pos hwB, ← hcompat _ hmemA hwB, hone]
          · rw [if_neg hwB, hone]
        · rw [if_neg hone]
      · have hmemD : (joinDom A B).getD i 0 ∈ pySetDiff B.domain A.domain := by
          unfold joinDom
          rw [List.getD_append_right _ _ _ _ (by omega)]
          apply getD_mem
          rw [hlen_dNew] at hiR
          omega
        have hwB : (joinDom A B).getD i 0 ∈ B.domain := (mem_pySetDiff.mp hmemD).1
        rw [haval_ge i (by omega) hiR, if_pos rfl, if_pos hwB, hOSB _ hwB]
  · exact joinOS_isSome A B hsomeA hsomeB

lemma map_erase_indexOf (f : Nat → Nat) :
    ∀ (l : List Nat) (v : Nat), v ∈ l →
      (l.erase v).map f = (l.map f).eraseIdx (l.indexOf v) := by
  intro l
  induction l with
  | nil => intro v hv; simp at hv
  | cons a l ih =>
      intro v hv
      by_cases hav : a = v
      · subst hav
        simp [List.erase_cons_head]
      · have hvl : v ∈ l := by
          rcases List.mem_cons.mp hv with h | h
          · exact absurd h.symm hav
          · exact h
        have h1 : (a == v) = false := by simpa using hav
        simp [List.erase_cons, List.indexOf_cons, h1, ih v hvl]

lemma marginalize_ShapeInv (f : Factor) (hWF : WF f) (v : Nat) (hv : v ∈ f.domain) :
    ShapeInv ⟨f.domain.erase v, f.os, f.table.sumAxis (f.domain.indexOf v)⟩ := by
  obtain ⟨hnd, hsome, hshape, _⟩ := hWF
  constructor
  · show f.table.shape.eraseIdx (f.domain.indexOf v) = _
    rw [map_erase_indexOf _ f.domain v hv, hshape]
  · intro w hw
    exact hsome w (List.mem_of_mem_erase hw)

lemma evStep_WF (self_os : OS) (f : Factor) (vp : Option Nat) (var value : Nat)
    (hvar : var ∈ f.domain) (hval : value ∈ osGet f.os var)
    (hos_eq : osGet f.os var = osGet self_os var) (hWF : WF f) :
    evStepCore self_os f vp var value = some
      (⟨f.domain, fun w => if w = var then some [value] else f.os w,
        ⟨List.zipWith (fun w s => if w = var then
             min ((osGet self_os var).indexOf value + 1) s -
               min ((osGet self_os var).indexOf value) s else s) f.domain f.table.shape,
         fun ix => f.table.data
           ((List.range f.domain.length).map
             (fun i => if f.domain.getD i 0 = var then
                 (osGet self_os var).indexOf value + ix.getD i 0 else ix.getD i 0))⟩⟩,
        some ((osGet self_os var).indexOf value)) ∧
      WF ⟨f.domain, fun w => if w = var then some [value] else f.os w,
        ⟨List.zipWith (fun w s => if w = var then
             min ((osGet self_os var).indexOf value + 1) s -
               min ((osGet self_os var).indexOf value) s else s) f.domain f.table.shape,
         fun ix => f.table.data
           ((List.range f.domain.length).map
             (fun i => if f.domain.getD i 0 = var then
                 (osGet self_os var).indexOf value + ix.getD i 0 else ix.getD i 0))⟩⟩ := by
  obtain ⟨hnd, hsome, hshape, hosnd⟩ := hWF
  have ha : f.domain.indexOf var < f.domain.length := List.indexOf_lt_length.mpr hvar
  have hlen : f.table.shape.length = f.domain.length := by rw [hshape]; simp
  have hp : (osGet self_os var).indexOf value < f.table.shape.getD (f.domain.indexOf var) 0 := by
    rw [hshape, getD_map _ _ _ ha, getD_indexOf hvar, ← hos_eq]
    exact List.indexOf_lt_length.mpr (hos_eq ▸ hval)
  constructor
  · unfold evStepCore
    rw [if_pos hvar, if_pos hval]
  · refine ⟨hnd, ?_, ?_, ?_⟩
    · intro w hw
      by_cases hwvar : w = var
      · simp [hwvar]
      · simpa [hwvar] using hsome w hw
    · show List.zipWith _ f.domain f.table.shape = _
      rw [zipWith_slice_shape f.domain f.table.shape var hnd hvar hlen _ hp]
      apply ext_getD
      · simp [hlen]
      · intro j hj
        have hjd : j < f.domain.length := by simpa [hlen] using hj
        rw [getD_map (fun v => (osGet (fun w => if w = var then some [value] else f.os w) v).length)
          _ j hjd]
        by_cases hja : j = f.domain.indexOf var
        · subst hja
          rw [List.getD_eq_getElem _ _ (by simpa [hlen] using ha), List.getElem_set_self,
            getD_indexOf hvar]
          simp [osGet]
        · have hne : f.domain.getD j 0 ≠ var := by
            intro hcontra
            apply hja
            rw [← hcontra] at hvar ⊢
            exact (indexOf_getD_self hnd hjd).symm
          rw [List.getD_eq_getElem _ _ (by simpa [hlen] using hjd),
            List.getElem_set_ne (by omega), osGet]
          simp only [if_neg hne]
          rw [← List.getD_eq_getElem _ _ (by simpa [hlen] using hjd), hshape,
            getD_map _ _ j hjd]
          rfl
    · intro w hw
      by_cases hwvar : w = var
      · simp [osGet, hwvar]
      · show (osGet (fun u => if u = var then some [value] else f.os u) w).Nodup
        simp only [osGet, if_neg hwvar]
        exact hosnd w hw

lemma evidence_fold_WF :
    ∀ (kwargs : List (Nat × Nat)) (self_os : OS) (f : Factor) (vp : Option Nat),
      WF f →
      (∀ q ∈ kwargs, q.1 ∈ f.domain ∧ q.2 ∈ osGet f.os q.1 ∧
        osGet f.os q.1 = osGet self_os q.1) →
      (kwargs.map Prod.fst).Nodup →
      ∀ r, List.foldlM (evStep self_os) (f, vp) kwargs = some r → WF r.1 := by
  intro kwargs
  induction kwargs with
  | nil =>
      intro self_os f vp hWF _ _ r hr
      simp only [List.foldlM] at hr
      cases hr
      exact hWF
  | cons q rest ih =>
      intro self_os f vp hWF hq hnd r hr
      obtain ⟨hdom, hval, hos⟩ := hq q (by simp)
      obtain ⟨hstep, hWF2⟩ := evStep_WF self_os f vp q.1 q.2 hdom hval hos hWF
      rw [List.foldlM_cons] at hr
      rw [show evStep self_os (f, vp) q = evStepCore self_os f vp q.1 q.2 from rfl,
        hstep] at hr
      simp only [Option.bind_eq_bind, Option.some_bind] at hr
      apply ih self_os _ _ hWF2 ?_ (by simpa using hnd.of_cons) r hr
      intro p hp
      have hpq : p.1 ≠ q.1 := by
        have := hnd
        simp only [List.map_cons, List.nodup_cons] at this
        intro hcontra
        exact this.1 (hcontra ▸ List.mem_map_of_mem Prod.fst hp)
      obtain ⟨h1, h2, h3⟩ := hq p (by simp [hp])
      refine ⟨h1, ?_, ?_⟩
      · show p.2 ∈ osGet (fun w => if w = q.1 then some [q.2] else f.os w) p.1
        simpa [osGet, if_neg hpq] using h2
      · show osGet (fun w => if w = q.1 then some [q.2] else f.os w) p.1 = _
        simpa [osGet, if_neg hpq] using h3

/-! ### Claim theorems -/

/-- Claim C4: `self.join(other)` raises the incompatible-outcome-space
`IndexError` (modelled as `none`) exactly when some variable lying in both
domains has outcome sequences that differ between the two factors, compared
as ordered sequences.  The check runs before anything is built and the
method never writes to either operand (the translation is pure), so a
raising call leaves both operands unchanged. -/
theorem claim4_join_error (A B : Factor)
    (hA : ∀ v ∈ A.domain, (A.os v).isSome = true)
    (hB : ∀ v ∈ B.domain, (B.os v).isSome = true) :
    A.join B = none ↔ ∃ v, v ∈ A.domain ∧ v ∈ B.domain ∧ osGet A.os v ≠ osGet B.os v := by
  unfold Factor.join
  by_cases h : ∃ v ∈ B.domain, v ∈ A.domain ∧ osGet A.os v ≠ osGet B.os v
  · rw [if_pos h]
    obtain ⟨v, hvB, hvA, hne⟩ := h
    simp only [true_iff]
    exact ⟨v, hvA, hvB, hne⟩
  · rw [if_neg h]
    constructor
    · intro hcontra
      exact absurd hcontra (by simp)
    · rintro ⟨v, hvA, hvB, hne⟩
      exact absurd ⟨v, hvB, hvA, hne⟩ h

/-- Witness for C4 at concrete compatible factors. -/
theorem claim4_join_error_witness :
    (∀ v ∈ eA.domain, (eA.os v).isSome = true) ∧
    (∀ v ∈ eB.domain, (eB.os v).isSome = true) ∧
    (eA.join eB = none ↔ ∃ v, v ∈ eA.domain ∧ v ∈ eB.domain ∧ osGet eA.os v ≠ osGet eB.os v) :=
  ⟨by decide, by decide, claim4_join_error eA eB (by decide) (by decide)⟩

/-- Claim C8: when the table sum is nonzero, `normalize` keeps the shape,
divides every entry by the grand sum (in place on `self.table` in the
Python code, which returns the same instance), and a second `normalize`
leaves the factor unchanged. -/
theorem claim8_normalize (f : Factor) (h : f.table.sumAll ≠ 0) :
    f.normalize.table.shape = f.table.shape ∧
    (∀ ix, f.normalize.table.data ix = f.table.data ix / f.table.sumAll) ∧
    f.normalize.normalize = f.normalize := by
  refine ⟨rfl, fun ix => rfl, ?_⟩
  unfold Factor.normalize
  simp only
  have hs : (f.table.divScalar f.table.sumAll).sumAll = 1 := by
    rw [sumAll_divScalar]
    exact div_self h
  rw [hs, divScalar_one]

/-- Witness for C8 at a concrete factor with nonzero mass. -/
theorem claim8_normalize_witness :
    eB.table.sumAll ≠ 0 ∧
    (eB.normalize.table.shape = eB.table.shape ∧
      (∀ ix, eB.normalize.table.data ix = eB.table.data ix / eB.table.sumAll) ∧
      eB.normalize.normalize = eB.normalize) := by
  have h : eB.table.sumAll ≠ 0 := by
    norm_num [eB, tbl1, Tensor.sumAll, allIx, List.range_succ]
  exact ⟨h, claim8_normalize eB h⟩

/-- Claim C9: with a non-empty domain and non-empty outcome sequences, the
constructor without a table argument produces a table whose entries are all
equal and sum to 1. -/
theorem claim9_uniform (dom : List Nat) (os : OS) (hdom : dom ≠ [])
    (hos : ∀ v ∈ dom, osGet os v ≠ []) :
    (∀ ix iy, (Factor.init dom os none).table.data ix = (Factor.init dom os none).table.data iy) ∧
    (Factor.init dom os none).table.sumAll = 1 := by
  constructor
  · intro ix iy
    rfl
  · unfold Factor.init
    simp only
    rw [sumAll_divScalar]
    apply div_self
    have hone : (npOnes (dom.map (fun v => (osGet os v).length))).sumAll =
        ((dom.map (fun v => (osGet os v).length)).prod : ℚ) := by
      unfold Tensor.sumAll npOnes
      simp only
      rw [list_sum_map_const, length_allIx, mul_one]
    rw [hone]
    have hpos : 0 < (dom.map (fun v => (osGet os v).length)).prod := by
      apply List.prod_pos
      intro n hn
      obtain ⟨v, hv, rfl⟩ := List.mem_map.mp hn
      exact List.length_pos.mpr (hos v hv)
    exact_mod_cast Nat.pos_iff_ne_zero.mp (by exact_mod_cast hpos)

/-- Witness for C9 at a concrete domain and outcome space. -/
theorem claim9_uniform_witness :
    (([0] : List Nat) ≠ []) ∧ (∀ v ∈ ([0] : List Nat), osGet osU v ≠ []) ∧
    ((∀ ix iy, (Factor.init [0] osU none).table.data ix =
        (Factor.init [0] osU none).table.data iy) ∧
      (Factor.init [0] osU none).table.sumAll = 1) :=
  ⟨by decide, by decide, claim9_uniform [0] osU (by decide) (by decide)⟩

/-- Claim C2 concerns `evidence` on a variable absent from the domain (a true
silent no-op in the code) and on a value absent from the outcome sequence.
For the latter the `if value in f.outcomeSpace[var]` guard covers only the
assignment of `valuepos`, while the slicing and the outcome-space rewrite
run unconditionally, so the call raises `UnboundLocalError` (here: `none`)
instead of the documented no-op.  This theorem evaluates the model at the
failing input: variable `0` is in the domain, value `5` is not in its
outcome sequence `[0, 1]`, and the call errors rather than returning the
factor untouched; an absent variable (`7`) by contrast is a genuine no-op. -/
theorem claim2_evidence_unknown_value :
    WF eA ∧ (0 ∈ eA.domain) ∧ (5 ∉ osGet eA.os 0) ∧
    eA.evidence [(0, 5)] = none ∧
    (7 ∉ eA.domain) ∧ eA.evidence [(7, 0)] = some eA :=
  ⟨by decide, by decide, by decide, rfl, by decide, rfl⟩

/-- Claim C6, amended.  `__getitem__` asserts the index count first, so any
count mismatch is an `AssertionError`; with a matching count both read and
write fail with the `ValueError` of `list.index` when some supplied value
is absent from its variable's outcome sequence.  `__setitem__` has no
length assertion: with too few values it fails only because reading
`outcomes[i]` raises (`IndexError`, or `ValueError` on an earlier bad
value), and with too many values the surplus is silently ignored and the
write succeeds. -/
theorem claim6_indexing (f : Factor) (outs : List Nat) (val : ℚ) :
    (outs.length ≠ f.domain.length → f.getItem outs = Except.error PyErr.assertionError) ∧
    (outs.length = f.domain.length →
      (∃ i, i < f.domain.length ∧ outs.getD i 0 ∉ osGet f.os (f.domain.getD i 0)) →
      f.getItem outs = Except.error PyErr.valueError ∧
        f.setItem outs val = Except.error PyErr.valueError) ∧
    (outs.length < f.domain.length → ∃ e, f.setItem outs val = Except.error e) ∧
    (f.domain.length ≤ outs.length →
      (∀ i, i < f.domain.length → outs.getD i 0 ∈ osGet f.os (f.domain.getD i 0)) →
      ∃ g, f.setItem outs val = Except.ok g) := by
  refine ⟨?_, ?_, ?_, ?_⟩
  · intro hlen
    unfold Factor.getItem
    rw [if_neg hlen]
  · intro hlen hbad
    have herr := ixListAux_valueError f.os f.domain outs hlen.symm hbad
    constructor
    · unfold Factor.getItem
      rw [if_pos hlen, herr]
      rfl
    · unfold Factor.setItem
      rw [herr]
      rfl
  · intro hlen
    obtain ⟨e, he⟩ := ixListAux_short f.os f.domain outs hlen
    refine ⟨e, ?_⟩
    unfold Factor.setItem
    rw [he]
    rfl
  · intro hlen hmem
    obtain ⟨ixs, hixs⟩ := ixListAux_ok_long f.os f.domain outs hlen hmem
    refine ⟨⟨f.domain, f.os,
      ⟨f.table.shape, fun ix => if ix = ixs then val else f.table.data ix⟩⟩, ?_⟩
    unfold Factor.setItem
    rw [hixs]
    rfl

/-- Counterexample to C6 as stated: with one domain variable, an indexed
write with two supplied values does not fail at all; the surplus value is
ignored and the cell addressed by the first value is overwritten. -/
theorem claim6_counterexample :
    eA.domain.length = 1 ∧ (2 : Nat) ≠ 1 ∧
    (eA.setItem [0, 1] 5).map (fun g => g.getItem [0]) = Except.ok (Except.ok 5) :=
  ⟨rfl, by decide, rfl⟩

/-- Witness for C6: each amended branch discharged at concrete inputs. -/
theorem claim6_indexing_witness :
    ((2 : Nat) ≠ eA.domain.length ∧ eA.getItem [0, 1] = Except.error PyErr.assertionError) ∧
    (eA.getItem [7] = Except.error PyErr.valueError ∧
      eA.setItem [7] 5 = Except.error PyErr.valueError) ∧
    (∃ e, eAB.setItem [0] 5 = Except.error e) ∧
    (∃ g, eA.setItem [0, 1] 5 = Except.ok g) := by
  refine ⟨⟨by decide, (claim6_indexing eA [0, 1] 5).1 (by decide)⟩, ?_, ?_, ?_⟩
  · exact (claim6_indexing eA [7] 5).2.1 (by decide) ⟨0, by decide, by decide⟩
  · exact (claim6_indexing eAB [0] 5).2.2.1 (by decide)
  · exact (claim6_indexing eA [0, 1] 5).2.2.2 (by decide) (by decide)

/-- Claim C3, amended.  The joined domain is `self.domain` followed by the
variables of `other.domain` not already in `self.domain`; `self`'s
variables keep their original relative order, but the appended variables
appear in CPython set-iteration order — ascending for small integer
names — rather than in `other`'s relative order.  For fixed inputs the
ordering is deterministic (the model is a function of the operands). -/
theorem claim3_join_domain (A B : Factor)
    (h : ∀ v, v ∈ A.domain → v ∈ B.domain → osGet A.os v = osGet B.os v) :
    ∃ C, A.join B = some C ∧
      C.domain = A.domain ++ pySetDiff B.domain A.domain ∧
      C.domain.take A.domain.length = A.domain ∧
      (∀ v, v ∈ C.domain.drop A.domain.length ↔ v ∈ B.domain ∧ v ∉ A.domain) ∧
      (C.domain.drop A.domain.length).Sorted (· ≤ ·) ∧
      (C.domain.drop A.domain.length).Nodup := by
  refine ⟨_, join_eq_some A B (join_guard_of_compat h), rfl, ?_, ?_, ?_, ?_⟩
  · simp only [joinDom, List.take_left]
  · intro v
    simp only [joinDom, List.drop_left]
    exact mem_pySetDiff
  · simp only [joinDom, List.drop_left]
    exact sorted_pySetDiff _ _
  · simp only [joinDom, List.drop_left]
    exact nodup_pySetDiff _ _

/-- Counterexample to C3 as stated: joining a factor over variable 0 with a
factor whose domain is `[2, 1]` puts the appended variables in ascending
set-iteration order `[1, 2]` (CPython: `list({2, 1} - {0}) == [1, 2]`), not
in `other`'s relative order `[2, 1]`. -/
theorem claim3_counterexample :
    WF eA ∧ WF eB21 ∧
    (∀ v, v ∈ eA.domain → v ∈ eB21.domain → osGet eA.os v = osGet eB21.os v) ∧
    (eA.join eB21).map Factor.domain = some [0, 1, 2] ∧
    eA.domain ++ eB21.domain.filter (fun v => decide (v ∉ eA.domain)) = [0, 2, 1] ∧
    ([0, 1, 2] : List Nat) ≠ [0, 2, 1] :=
  ⟨by decide, by decide, by decide, by decide, by decide, by decide⟩

/-- Claim C7: marginalizing a domain member removes it from the domain
(first occurrence; the other variables keep their order), sums the table
over that variable's axis, and preserves the total mass.  The method reads
the receiver and builds a fresh factor, so the receiver is unchanged. -/
theorem claim7_marginalize (f : Factor) (hWF : WF f) (v : Nat) (hv : v ∈ f.domain) :
    ∃ g, f.marginalize v = some g ∧
      g.domain = f.domain.erase v ∧
      g.os = f.os ∧
      g.table.shape = f.table.shape.eraseIdx (f.domain.indexOf v) ∧
      (∀ ix, g.table.data ix = ((List.range (osGet f.os v).length).map
        (fun k => f.table.data (ix.insertIdx (f.domain.indexOf v) k))).sum) ∧
      g.table.sumAll = f.table.sumAll := by
  obtain ⟨hnd, hsome, hshape, hosnd⟩ := hWF
  have ha : f.domain.indexOf v < f.domain.length := List.indexOf_lt_length.mpr hv
  have halen : f.domain.indexOf v < f.table.shape.length := by
    rw [hshape]; simpa using ha
  have hget : f.table.shape.getD (f.domain.indexOf v) 0 = (osGet f.os v).length := by
    rw [hshape, List.getD_eq_getElem _ _ (by simpa using ha), List.getElem_map]
    rw [List.getElem_indexOf ha]
  refine ⟨⟨f.domain.erase v, f.os, f.table.sumAxis (f.domain.indexOf v)⟩, ?_, rfl, rfl,
    rfl, ?_, ?_⟩
  · unfold Factor.marginalize
    rw [if_pos hv]
    rfl
  · intro ix
    show ((List.range (f.table.shape.getD (f.domain.indexOf v) 0)).map
      (fun k => f.table.data (ix.insertIdx (f.domain.indexOf v) k))).sum = _
    rw [hget]
  · exact sumAll_sumAxis f.table (f.domain.indexOf v) halen

/-- Witness for C7 at a concrete two-variable factor. -/
theorem claim7_marginalize_witness :
    WF eAB ∧ (0 ∈ eAB.domain) ∧
    (∃ g, eAB.marginalize 0 = some g ∧
      g.domain = eAB.domain.erase 0 ∧
      g.os = eAB.os ∧
      g.table.shape = eAB.table.shape.eraseIdx (eAB.domain.indexOf 0) ∧
      (∀ ix, g.table.data ix = ((List.range (osGet eAB.os 0).length).map
        (fun k => eAB.table.data (ix.insertIdx (eAB.domain.indexOf 0) k))).sum) ∧
      g.table.sumAll = eAB.table.sumAll) :=
  ⟨by decide, by decide, claim7_marginalize eAB (by decide) 0 (by decide)⟩

/-- Claim C5: evidence on a domain variable `v` with an in-range value `x`
returns a factor whose outcome sequence for `v` is exactly `[x]`, whose
table keeps its rank with `v`'s axis restricted to length 1, and whose
total mass is the original mass restricted to the cells where `v = x`;
other variables' outcome-space entries are untouched, and the method works
on a deep copy so the receiver is never mutated. -/
theorem claim5_evidence (f : Factor) (hWF : WF f) (v x : Nat)
    (hv : v ∈ f.domain) (hx : x ∈ osGet f.os v) :
    ∃ g, f.evidence [(v, x)] = some g ∧
      osGet g.os v = [x] ∧
      (∀ w, w ≠ v → g.os w = f.os w) ∧
      g.domain = f.domain ∧
      g.table.shape.length = f.table.shape.length ∧
      g.table.shape = f.table.shape.set (f.domain.indexOf v) 1 ∧
      g.table.sumAll = ((allIx (f.table.shape.eraseIdx (f.domain.indexOf v))).map
        (fun ix => f.table.data
          (ix.insertIdx (f.domain.indexOf v) ((osGet f.os v).indexOf x)))).sum := by
  obtain ⟨hnd, hsome, hshape, hosnd⟩ := hWF
  have ha : f.domain.indexOf v < f.domain.length := List.indexOf_lt_length.mpr hv
  have halen : f.domain.indexOf v < f.table.shape.length := by
    rw [hshape]; simpa using ha
  have hget : f.table.shape.getD (f.domain.indexOf v) 0 = (osGet f.os v).length := by
    rw [hshape, List.getD_eq_getElem _ _ (by simpa using ha), List.getElem_map]
    rw [List.getElem_indexOf ha]
  have hp : (osGet f.os v).indexOf x < f.table.shape.getD (f.domain.indexOf v) 0 := by
    rw [hget]
    exact List.indexOf_lt_length.mpr hx
  have hsh := zipWith_slice_shape f.domain f.table.shape v hnd hv
    (by rw [hshape]; simp) ((osGet f.os v).indexOf x) hp
  refine ⟨_, evidence_single f v x hv hx, ?_, ?_, rfl, ?_, ?_, ?_⟩
  · simp [osGet]
  · intro w hw
    simp [if_neg hw]
  · show (List.zipWith _ f.domain f.table.shape).length = _
    rw [hsh]
    simp
  · exact hsh
  · show ((allIx (List.zipWith _ f.domain f.table.shape)).map _).sum = _
    rw [hsh, sum_allIx_set_one _ _ halen]
    apply congrArg
    apply List.map_congr_left
    intro iy hiy
    have hiylen : iy.length + 1 = f.domain.length := by
      have h1 := length_of_mem_allIx hiy
      have h2 : f.table.shape.length = f.domain.length := by rw [hshape]; simp
      rw [List.length_eraseIdx_of_lt halen] at h1
      omega
    exact congrArg f.table.data
      (sliced_index_eval f.domain hnd v hv iy hiylen ((osGet f.os v).indexOf x))

/-- Witness for C5 at a concrete factor: evidence variable 0, value 1. -/
theorem claim5_evidence_witness :
    WF eAB ∧ (0 ∈ eAB.domain) ∧ (1 ∈ osGet eAB.os 0) ∧
    (∃ g, eAB.evidence [(0, 1)] = some g ∧
      osGet g.os 0 = [1] ∧
      (∀ w, w ≠ 0 → g.os w = eAB.os w) ∧
      g.domain = eAB.domain ∧
      g.table.shape.length = eAB.table.shape.length ∧
      g.table.shape = eAB.table.shape.set (eAB.domain.indexOf 0) 1 ∧
      g.table.sumAll = ((allIx (eAB.table.shape.eraseIdx (eAB.domain.indexOf 0))).map
        (fun ix => eAB.table.data
          (ix.insertIdx (eAB.domain.indexOf 0) ((osGet eAB.os 0).indexOf 1)))).sum) :=
  ⟨by decide, by decide, by decide, claim5_evidence eAB (by decide) 0 1 (by decide) (by decide)⟩

/-- Claim C1, amended.  For well-formed factors whose outcome spaces agree on
every variable of either domain on which both are defined (in particular on
shared domain variables, which is what the join's compatibility check
verifies), the joined factor's value at any joint assignment is the product
of the operands' values at the restricted assignments, and the same scalar
is obtained with either operand as the receiver. -/
theorem claim1_join_value (A B : Factor) (hA : WF A) (hB : WF B)
    (hcompat : ∀ v, v ∈ A.domain → v ∈ B.domain → osGet A.os v = osGet B.os v)
    (hagreeB : ∀ v ∈ A.domain, v ∉ B.domain → (B.os v).isSome = true → B.os v = A.os v)
    (hagreeA : ∀ v ∈ B.domain, v ∉ A.domain → (A.os v).isSome = true → A.os v = B.os v)
    (asn : Nat → Nat)
    (hasnA : ∀ v ∈ A.domain, asn v ∈ osGet A.os v)
    (hasnB : ∀ v ∈ B.domain, asn v ∈ osGet B.os v) :
    A.getItem (A.domain.map asn) = Except.ok (A.table.data (ixOf A.os A.domain asn)) ∧
    B.getItem (B.domain.map asn) = Except.ok (B.table.data (ixOf B.os B.domain asn)) ∧
    (∃ C, A.join B = some C ∧
      C.getItem (C.domain.map asn) = Except.ok
        (A.table.data (ixOf A.os A.domain asn) * B.table.data (ixOf B.os B.domain asn))) ∧
    (∃ C2, B.join A = some C2 ∧
      C2.getItem (C2.domain.map asn) = Except.ok
        (A.table.data (ixOf A.os A.domain asn) * B.table.data (ixOf B.os B.domain asn))) := by
  refine ⟨getItem_map A asn hasnA, getItem_map B asn hasnB,
    join_val_one A B hA hB hcompat hagreeB asn hasnA hasnB, ?_⟩
  obtain ⟨C2, hC2, hval⟩ := join_val_one B A hB hA
    (fun v h1 h2 => (hcompat v h2 h1).symm) hagreeA asn hasnB hasnA
  rw [mul_comm] at hval
  exact ⟨C2, hC2, hval⟩

/-- Witness for C1 at concrete disjoint-domain factors. -/
theorem claim1_join_value_witness :
    WF eA ∧ WF eB ∧
    (∀ v, v ∈ eA.domain → v ∈ eB.domain → osGet eA.os v = osGet eB.os v) ∧
    (∀ v ∈ eA.domain, v ∉ eB.domain → (eB.os v).isSome = true → eB.os v = eA.os v) ∧
    (∀ v ∈ eB.domain, v ∉ eA.domain → (eA.os v).isSome = true → eA.os v = eB.os v) ∧
    (∀ v ∈ eA.domain, (fun _ => 0) v ∈ osGet eA.os v) ∧
    (∀ v ∈ eB.domain, (fun _ => 0) v ∈ osGet eB.os v) ∧
    (eA.getItem (eA.domain.map (fun _ => 0)) =
        Except.ok (eA.table.data (ixOf eA.os eA.domain (fun _ => 0))) ∧
      eB.getItem (eB.domain.map (fun _ => 0)) =
        Except.ok (eB.table.data (ixOf eB.os eB.domain (fun _ => 0))) ∧
      (∃ C, eA.join eB = some C ∧
        C.getItem (C.domain.map (fun _ => 0)) = Except.ok
          (eA.table.data (ixOf eA.os eA.domain (fun _ => 0)) *
            eB.table.data (ixOf eB.os eB.domain (fun _ => 0)))) ∧
      (∃ C2, eB.join eA = some C2 ∧
        C2.getItem (C2.domain.map (fun _ => 0)) = Except.ok
          (eA.table.data (ixOf eA.os eA.domain (fun _ => 0)) *
            eB.table.data (ixOf eB.os eB.domain (fun _ => 0))))) :=
  ⟨by decide, by decide, by decide, by decide, by decide, by decide, by decide,
    claim1_join_value eA eB (by decide) (by decide) (by decide) (by decide) (by decide)
      (fun _ => 0) (by decide) (by decide)⟩

/-- Counterexample to C1 as stated.  `eRev` satisfies the data-model
invariants I1 to I4 — its extra outcome-space entry for variable `0`
(which is not in its domain) is the "harmless superset" of I3 — and it
shares no domain variable with `eA`, so the compatibility premise holds
vacuously.  Yet the dict update in `join` lets that extra entry override
`eA`'s entry for variable `0` in the joined factor, so the joined factor
reads its axis for variable `0` through the reversed outcome sequence
`[1, 0]`: at the joint assignment `(0, 0)` the join stores `3 * 1 = 3`
while `eA.get(0) * eRev.get(0) = 2 * 1 = 2`. -/
theorem claim1_counterexample :
    WF eA ∧ WF eRev ∧
    (∀ v, v ∈ eA.domain → v ∈ eRev.domain → osGet eA.os v = osGet eRev.os v) ∧
    eA.getItem [0] = Except.ok 2 ∧ eRev.getItem [0] = Except.ok 1 ∧
    (eA.join eRev).map (fun C => C.getItem [0, 0]) = some (Except.ok 3) ∧
    (3 : ℚ) ≠ 2 * 1 := by
  refine ⟨by decide, by decide, by decide, rfl, rfl, ?_, by norm_num⟩
  have h : (eA.join eRev).map (fun C => C.getItem [0, 0]) =
      some (Except.ok ((3 : ℚ) * 1)) := rfl
  simpa using h

/-- Claim C10, amended.  Every factor-producing operation preserves the shape
invariant I1 together with I2: the constructor (with or without a table),
join, evidence with in-domain variables and in-range values, marginalize on
a domain member, and normalize.  For join the operands' outcome spaces must
additionally agree on every variable of either domain on which both define
an entry; the counterexample shows that without this the "harmless
superset" of I3 lets `other`'s dict entries override `self`'s and break I1
in the joined factor. -/
theorem claim10_invariants :
    (∀ (dom : List Nat) (os : OS), (∀ v ∈ dom, (os v).isSome = true) →
      ShapeInv (Factor.init dom os none)) ∧
    (∀ (dom : List Nat) (os : OS) (t : Tensor), (∀ v ∈ dom, (os v).isSome = true) →
      t.shape = dom.map (fun v => (osGet os v).length) →
      ShapeInv (Factor.init dom os (some t))) ∧
    (∀ A B : Factor, WF A → WF B →
      (∀ v, v ∈ A.domain → v ∈ B.domain → osGet A.os v = osGet B.os v) →
      (∀ v ∈ A.domain, v ∉ B.domain → (B.os v).isSome = true → B.os v = A.os v) →
      ∀ C, A.join B = some C → ShapeInv C) ∧
    (∀ f : Factor, WF f → ∀ kwargs : List (Nat × Nat),
      (kwargs.map Prod.fst).Nodup →
      (∀ q ∈ kwargs, q.1 ∈ f.domain ∧ q.2 ∈ osGet f.os q.1) →
      ∀ g, f.evidence kwargs = some g → ShapeInv g) ∧
    (∀ f : Factor, WF f → ∀ v ∈ f.domain, ∀ g, f.marginalize v = some g → ShapeInv g) ∧
    (∀ f : Factor, ShapeInv f → ShapeInv f.normalize) := by
  refine ⟨?_, ?_, ?_, ?_, ?_, ?_⟩
  · intro dom os hsome
    exact ⟨rfl, hsome⟩
  · intro dom os t hsome hshape
    exact ⟨hshape, hsome⟩
  · intro A B hA hB hcompat hagree C hC
    rw [join_eq_some A B (join_guard_of_compat hcompat)] at hC
    cases hC
    exact join_ShapeInv A B hA hB hcompat hagree
  · intro f hWF kwargs hnd hq g hg
    unfold Factor.evidence at hg
    cases hr : List.foldlM (evStep f.os) (f, none) kwargs with
    | none => rw [hr] at hg; simp at hg
    | some r =>
        rw [hr] at hg
        simp only [Option.map_some'] at hg
        cases hg
        have hres := evidence_fold_WF kwargs f.os f none hWF
          (fun q hqin => ⟨(hq q hqin).1, (hq q hqin).2, rfl⟩) hnd r hr
        exact ⟨hres.2.2.1, hres.2.1⟩
  · intro f hWF v hv g hg
    unfold Factor.marginalize at hg
    rw [if_pos hv] at hg
    cases hg
    exact marginalize_ShapeInv f hWF v hv
  · intro f hf
    exact ⟨hf.1, hf.2⟩

/-- Counterexample to C10 as stated.  `eExtra` satisfies I1 to I4 (its extra
outcome-space entry `[5]` for variable `0`, not in its domain, is I3's
"harmless superset"), the two factors share no domain variable so the join
is compatible, and yet the joined factor's axis 0 has size 2 while its
outcome-space entry for variable 0 — overridden by `eExtra`'s — has
length 1: invariant I1 fails. -/
theorem claim10_counterexample :
    WF eA ∧ WF eExtra ∧
    (∀ v, v ∈ eA.domain → v ∈ eExtra.domain → osGet eA.os v = osGet eExtra.os v) ∧
    ∃ C, eA.join eExtra = some C ∧
      C.table.shape.getD 0 0 ≠ (osGet C.os (C.domain.getD 0 0)).length :=
  ⟨by decide, by decide, by decide, _, rfl, by decide⟩

/-- Witness for C10: each branch discharged at concrete inputs. -/
theorem claim10_invariants_witness :
    ShapeInv (Factor.init [0] osU none) ∧
    ShapeInv (Factor.init [0] osU (some (tbl1 [2]))) ∧
    (∃ C, eA.join eB = some C ∧ ShapeInv C) ∧
    (∃ g, eAB.evidence [(0, 1)] = some g ∧ ShapeInv g) ∧
    (∃ g, eAB.marginalize 0 = some g ∧ ShapeInv g) ∧
    ShapeInv eA.normalize := by
  refine ⟨claim10_invariants.1 [0] osU (by decide),
    claim10_invariants.2.1 [0] osU (tbl1 [2]) (by decide) (by decide),
    ⟨_, rfl, claim10_invariants.2.2.1 eA eB (by decide) (by decide) (by decide)
      (by decide) _ rfl⟩,
    ⟨_, rfl, claim10_invariants.2.2.2.1 eAB (by decide) [(0, 1)] (by decide)
      (by decide) _ rfl⟩,
    ⟨_, rfl, claim10_invariants.2.2.2.2.1 eAB (by decide) 0 (by decide) _ rfl⟩,
    claim10_invariants.2.2.2.2.2 eA (by decide)⟩

/-- Witness for C3 at concrete factors with out-of-order appended variables. -/
theorem claim3_join_domain_witness :
    (∀ v, v ∈ eA.domain → v ∈ eB21.domain → osGet eA.os v = osGet eB21.os v) ∧
    (∃ C, eA.join eB21 = some C ∧
      C.domain = eA.domain ++ pySetDiff eB21.domain eA.domain ∧
      C.domain.take eA.domain.length = eA.domain ∧
      (∀ v, v ∈ C.domain.drop eA.domain.length ↔ v ∈ eB21.domain ∧ v ∉ eA.domain) ∧
      (C.domain.drop eA.domain.length).Sorted (· ≤ ·) ∧
      (C.domain.drop eA.domain.length).Nodup) :=
  ⟨by decide, claim3_join_domain eA eB21 (by decide)⟩

end DiscreteFactor
